import Mathlib

/-!
Verification development for the `autosave` daemon.

The definitions below are shallow embeddings of the Rust sources:
`src/config.rs`, `src/types/implement.rs`, `src/client.rs`, `src/watcher.rs`,
`src/git.rs` and `src/redirect.rs`.  Strings that the Rust code manipulates
byte-wise are modelled as `List Char`; external libraries (libgit2, the OS,
the filesystem) are modelled either by explicit oracles passed as arguments
or by a failure-injection schedule consumed at each external call site.
-/

namespace Autosave

/-- Configuration record, from `struct Config` in `src/config.rs`. -/
structure Config where
  branch : String
  commit_message : String
  merge_message : String
  delay : Nat
deriving DecidableEq, Repr

/-- `Config::default` from `src/config.rs`. -/
def Config.defaultConfig : Config :=
  { branch := "tmp/autosave"
  , commit_message := "auto save"
  , merge_message := "auto merge"
  , delay := 3 }

/-!  Watch list (`src/types/implement.rs`).  Each entry owns one watcher
(represented by its identifier) and the one config it was created with. -/

/-- A watch-list entry as built by `ApiState::append_watch_dir`:
a freshly created `RepoWatcher` plus the given config. -/
structure WatchListEntry where
  watcherId : Nat
  config : Config
deriving DecidableEq, Repr

/-- The watch list, a `HashMap<PathBuf, WatchListEntry>` modelled as an
association list looked up with `List.lookup` (first binding wins). -/
abbrev WatchList := List (String × WatchListEntry)

/-- `HashMap::insert`: any existing binding for the key is replaced. -/
def insertWatch (wl : WatchList) (path : String) (e : WatchListEntry) : WatchList :=
  (path, e) :: wl.filter (fun kv => kv.1 ≠ path)

/-- `ApiState::append_watch_dir` from `src/types/implement.rs`: construct a
fresh watcher (its identifier is supplied by the caller, standing for the
`RepoWatcher::new` side effect) and `insert` the new entry for the path. -/
def append_watch_dir (wl : WatchList) (path : String) (config : Config)
    (freshWatcher : Nat) : WatchList :=
  insertWatch wl path { watcherId := freshWatcher, config := config }

/-!  Redirect configuration and library initialisation (`src/redirect.rs`). -/

/-- The process-wide statics `REDIRECT_FROM`, `REDIRECT_TO`, `SKIP_GITIGNORE`
of `src/redirect.rs`. -/
structure RedirectState where
  redirect_from : Option (List Char)
  redirect_to : Option (List Char)
  skip_gitignore : Bool
deriving DecidableEq, Repr

/-- The three environment variables read by the library constructor.
`none` means the variable is unset. -/
structure EnvVars where
  redirect_from : Option (List Char)
  redirect_to : Option (List Char)
  redirect_skip_gitignore : Option (List Char)

/-- `str::to_lowercase`, character-wise. -/
def toLowerStr (s : List Char) : List Char := s.map Char.toLower

/-- The environment-variable part of `init` in `src/redirect.rs`: the statics
start out as `None`/`None`/`false` and are populated only when both
`REDIRECT_FROM` and `REDIRECT_TO` are present. -/
def redirectInit (e : EnvVars) : RedirectState :=
  match e.redirect_from, e.redirect_to with
  | some f, some t =>
    { redirect_from := some f
    , redirect_to := some t
    , skip_gitignore :=
        match e.redirect_skip_gitignore with
        | some v => decide (v ≠ "0".data) && decide (toLowerStr v ≠ "false".data)
        | none => true }
  | some _, none => { redirect_from := none, redirect_to := none, skip_gitignore := false }
  | none, some _ => { redirect_from := none, redirect_to := none, skip_gitignore := false }
  | none, none => { redirect_from := none, redirect_to := none, skip_gitignore := false }

/-- `get_redirect` from `src/redirect.rs`. -/
def get_redirect (st : RedirectState) : Option (List Char × List Char) :=
  match st.redirect_from, st.redirect_to with
  | some f, some t => some (f, t)
  | some _, none => none
  | none, some _ => none
  | none, none => none

/-- `is_gitignored` from `src/redirect.rs`.  The oracle `ign` stands for the
external classification `GitRepo::new(path)` followed by `repo.is_ignored`
(`false` covering the case where opening the repository fails). -/
def is_gitignored (st : RedirectState) (ign : List Char → Bool) (s : List Char) : Bool :=
  if !st.skip_gitignore then false else ign s

/-!  Worktree path computation (`worktree_path` in `src/client.rs`). -/

/-- Join a list of pieces with a single separator character
(`Vec::join` / `String.intercalate` at character level). -/
def joinSep (sep : Char) : List (List Char) → List Char
  | [] => []
  | [c] => c
  | c :: d :: rest => c ++ sep :: joinSep sep (d :: rest)

/-- `str::replace("/", "-")`, character-wise. -/
def replaceSlashDash (b : List Char) : List Char :=
  b.map (fun ch => if ch = '/' then '-' else ch)

/-- `worktree_path` from `src/client.rs`: the result path as a component list
`<cache components> ++ [worktrees, <root components joined by '-'>,
<branch with '/' replaced by '-'>]`.  `rootComps` are the `Component::Normal`
components of the repository root. -/
def worktree_path (cache : List (List Char)) (rootComps : List (List Char))
    (branch : List Char) : List (List Char) :=
  cache ++ ["worktrees".data, joinSep '-' rootComps, replaceSlashDash branch]

/-!  Debounce worker (`src/watcher.rs`).  Time is modelled in seconds; the
event channel is a finite list of event timestamps in arrival order. -/

/-- `confs.windows(2).map(|v| v[1].delay - v[0].delay)` over the delay list. -/
def windowDiffs : List Nat → List Nat
  | a :: b :: rest => (b - a) :: windowDiffs (b :: rest)
  | [_] => []
  | [] => []

/-- The `relative_delays` iterator of `debounce_worker`:
`confs.iter().zip(once(confs[0].delay).chain(windows diffs))`. -/
def relative_delays (confs : List Config) : List (Config × Nat) :=
  match confs with
  | [] => []
  | c :: rest =>
    List.zip (c :: rest) (c.delay :: windowDiffs ((c :: rest).map Config.delay))

/-- One invocation of `repo.save(conf.branch, conf.commit_message,
conf.merge_message)` performed by the worker, with the time it fires. -/
structure SaveCall where
  branch : String
  commit_message : String
  merge_message : String
  time : Nat
deriving DecidableEq, Repr

/-- The inner debounce loop for one tier: `rx.recv_timeout(relative_delay)`
keeps consuming events while each next one arrives within `rd` seconds of the
current time; on timeout it returns the firing time and the pending events. -/
def debounce_tier (rd : Nat) : Nat → List Nat → Nat × List Nat
  | now, [] => (now + rd, [])
  | now, t :: rest =>
    if t ≤ now + rd then debounce_tier rd (max now t) rest else (now + rd, t :: rest)

/-- Run the `for (conf, relative_delay) in relative_delays` loop of
`debounce_worker`, emitting one save call per tier at its timeout time. -/
def run_tiers : List (Config × Nat) → Nat → List Nat → List SaveCall × Nat × List Nat
  | [], now, events => ([], now, events)
  | (c, rd) :: rest, now, events =>
    let r1 := debounce_tier rd now events
    let r2 := run_tiers rest r1.1 r1.2
    (⟨c.branch, c.commit_message, c.merge_message, r1.1⟩ :: r2.1, r2.2)

/-- `debounce_worker` from `src/watcher.rs` over a finite event trace, with a
fuel argument bounding the number of outer-loop iterations (each iteration
consumes at least the first `rx.recv()` event, so `events.length` fuel is
enough).  An empty trace is the closed channel; each iteration reads the config
list and runs the tier loop.  The returned list records the `save` invocations
in order. -/
def debounce_worker_fuel (confs : List Config) : Nat → List Nat → List SaveCall
  | 0, _ => []
  | _, [] => []
  | fuel + 1, t :: rest =>
    if confs.isEmpty then []
    else
      let r := run_tiers (relative_delays confs) t rest
      r.1 ++ debounce_worker_fuel confs fuel r.2.2

/-- `debounce_worker` on a finite trace: run with enough fuel. -/
def debounce_worker (confs : List Config) (events : List Nat) : List SaveCall :=
  debounce_worker_fuel confs events.length events

/-!  Git engine (`src/git.rs`).  Object ids are natural numbers; a tree is the
canonical list of its entries, and "the diff has no changed files" is tree
equality.  Every call into libgit2 that the Rust code handles with `map_err`
consumes one entry of a failure-injection schedule: `true` injects a backend
error at that call site (the call then has no effect), `false` lets the
modelled effect happen. -/

/-- An `anyhow` error: a base error possibly wrapped in `.context(...)`
layers.  `Display` on an `anyhow::Error` prints the outermost message. -/
inductive AErr where
  | base (msg : String)
  | ctx (msg : String) (inner : AErr)
deriving DecidableEq, Repr

/-- The outermost message of an error, as `format!("{}", e)` prints it. -/
def AErr.top : AErr → String
  | .base m => m
  | .ctx m _ => m

/-- An index entry, identified (as in claim C2) by path, mode, and object id. -/
structure IndexEntry where
  path : String
  mode : Nat
  oid : Nat
deriving DecidableEq, Repr

/-- A tree object: canonical list of index entries. -/
abbrev Tree := List IndexEntry

/-- `enum ReferenceName` from `src/git.rs`. -/
inductive ReferenceName where
  | branch (name : String)
  | commit (oid : Nat)
deriving DecidableEq, Repr

/-- A commit object: its tree, parent ids (in order), and message. -/
structure CommitObj where
  tree : Tree
  parents : List Nat
  message : String
deriving DecidableEq, Repr

/-- The observable state of an opened repository. -/
structure GitState where
  clean : Bool
  head : ReferenceName
  branches : List (String × Nat)
  commits : List (Nat × CommitObj)
  index : Tree
  workdir : Tree
  next_oid : Nat
deriving DecidableEq, Repr

def GitState.findBranch (s : GitState) (n : String) : Option Nat :=
  s.branches.lookup n

def GitState.findCommit (s : GitState) (o : Nat) : Option CommitObj :=
  s.commits.lookup o

/-- External behaviour supplied by libgit2 that the Rust code only invokes:
the merge-base computation and the three-way tree merge. -/
structure GitEnv where
  merge_base : Nat → Nat → Except AErr Nat
  merge_trees : Tree → Tree → Tree → Tree

/-- The failure-injection schedule. -/
abbrev Sched := List Bool

/-- The monad of the model: state = repository state plus schedule, errors
keep the state at the point of failure. -/
abbrev GitM (α : Type) := EStateM AErr (GitState × Sched) α

/-- Consume one schedule entry at a fallible libgit2 call site (`true`
injects a backend error there; an exhausted schedule injects none). -/
def popFail (msg : String) : GitM Unit := fun st =>
  match st.2 with
  | [] => .ok () (st.1, [])
  | true :: rest => .error (.base msg) (st.1, rest)
  | false :: rest => .ok () (st.1, rest)

def getGitState : GitM GitState := fun st => .ok st.1 st

def modifyGitState (f : GitState → GitState) : GitM Unit := fun st =>
  .ok () (f st.1, st.2)

def throwM (e : AErr) : GitM α := fun st => .error e st

def liftE : Except AErr α → GitM α
  | .ok a => pure a
  | .error e => throwM e

/-- Model of anyhow's `.context(msg)` / `.with_context(|| msg)` on a result. -/
def withCtx (msg : String) (m : GitM α) : GitM α := fun st =>
  match m st with
  | .ok a st2 => .ok a st2
  | .error e st2 => .error (.ctx msg e) st2

/-- `.context(msg)` on a plain `Result`. -/
def withCtxE (msg : String) : Except AErr α → Except AErr α
  | .ok a => .ok a
  | .error e => .error (.ctx msg e)

/-- `Reference::peel_to_commit` for a reference value. -/
def refCommit (s : GitState) (r : ReferenceName) : Except AErr Nat :=
  match r with
  | .branch n =>
    match s.findBranch n with
    | some o => .ok o
    | none => .error (.base "reference not found")
  | .commit o => .ok o

/-- `Reference::peel_to_tree`. -/
def refTree (s : GitState) (r : ReferenceName) : Except AErr Tree := do
  let o ← refCommit s r
  match s.findCommit o with
  | some c => .ok c.tree
  | none => .error (.base "commit not found")

/-- `GitRepo::head`: fails (with its context) when HEAD points at an unborn
branch. -/
def headRef (s : GitState) : Except AErr ReferenceName :=
  match s.head with
  | .branch n =>
    if (s.findBranch n).isSome then .ok (.branch n)
    else .error (.ctx "Failed to get HEAD reference" (.base "unborn branch"))
  | .commit o => .ok (.commit o)

/-- `GitRepo::is_saved` from `src/git.rs`: the working tree has no diff
against HEAD, or the branch exists and the working tree has no diff against
it.  `diff.stats().files_changed() == 0` is modelled as tree equality. -/
def is_saved (s : GitState) (branch : String) : Except AErr Bool := do
  let h ← headRef s
  let ht ← refTree s h
  if ht = s.workdir then
    .ok true
  else
    match s.findBranch branch with
    | some _ => do
      let bt ← refTree s (.branch branch)
      .ok (bt = s.workdir)
    | none => .ok false

/-- `GitRepo::change_head_ref`: write the HEAD reference (symbolic for a
branch, direct for a commit id), then peel and mixed-reset, which resets the
index to the new HEAD tree and leaves the working tree untouched.  Note the
reference is written before the reset, so a reset failure leaves HEAD moved. -/
def change_head_ref (target : ReferenceName) : GitM ReferenceName := do
  popFail "reference write failed"
  modifyGitState (fun s => { s with head := target })
  popFail "reset failed"
  let s ← getGitState
  let o ← liftE (refCommit s target)
  match s.findCommit o with
  | some c => do
    modifyGitState (fun s2 => { s2 with index := c.tree })
    pure target
  | none => throwM (.base "commit not found")

/-- `GitRepo::get_or_create_branch`: return the branch, creating it from the
current HEAD commit when absent. -/
def get_or_create_branch (name : String) : GitM String := do
  let s ← getGitState
  match s.findBranch name with
  | some _ => pure name
  | none => do
    let h ← liftE (headRef s)
    let o ← liftE (withCtxE "Failed to create branch" (refCommit s h))
    popFail "branch creation failed"
    modifyGitState (fun s2 => { s2 with branches := (name, o) :: s2.branches })
    pure name

/-- `GitRepo::change_head_branch`. -/
def change_head_branch (name : String) : GitM ReferenceName := do
  let n ← get_or_create_branch name
  change_head_ref (.branch n)

/-- `GitRepo::add_cwd_all`: `index.add_all(["."])` plus `index.write()`, which
stages the full working tree (untracked files included). -/
def add_cwd_all : GitM Unit := do
  popFail "add failed"
  modifyGitState (fun s => { s with index := s.workdir })

/-- `GitRepo::commit`: write the index as a tree and commit it on `HEAD` with
the given parents; the reference HEAD points at moves to the new commit (a
detached HEAD moves itself). -/
def commitPrim (parents : List Nat) (message : String) : GitM Nat := do
  popFail "commit failed"
  let s ← getGitState
  let oid := s.next_oid
  modifyGitState (fun s2 =>
    let s3 := { s2 with
      commits := (oid, ⟨s2.index, parents, message⟩) :: s2.commits
      next_oid := s2.next_oid + 1 }
    match s3.head with
    | .branch n => { s3 with branches := (n, oid) :: s3.branches }
    | .commit _ => { s3 with head := .commit oid })
  pure oid

/-- `GitRepo::commit_on_current_head`. -/
def commit_on_current_head (message : String) : GitM Nat := do
  let s ← getGitState
  let h ← liftE (headRef s)
  let c ← liftE (refCommit s h)
  commitPrim [c] message

/-- `GitRepo::merge` from `src/git.rs`: compute the merge base of `our` and
`their`; if either is the base, do nothing; otherwise three-way merge the
trees into a temporary index, commit with parents `[their, our]`, clean up
merge state, and restore the previous index object. -/
def gitMerge (env : GitEnv) (our their : ReferenceName) (message : String) :
    GitM (Option Nat) := do
  let s ← getGitState
  let oc ← liftE (refCommit s our)
  let tc ← liftE (refCommit s their)
  let base ← liftE (env.merge_base oc tc)
  if oc = base ∨ tc = base then
    pure none
  else
    match s.findCommit base with
    | none => throwM (.base "commit not found")
    | some baseCommit => do
      let ot ← liftE (refTree s our)
      let tt ← liftE (refTree s their)
      let before_index := s.index
      popFail "merge_trees failed"
      modifyGitState (fun s2 => { s2 with index := env.merge_trees baseCommit.tree ot tt })
      let c ← commitPrim [tc, oc] message
      modifyGitState (fun s2 => { s2 with index := before_index })
      pure (some c)

/-- `GitRepo::auto_merge`: when the prior HEAD was a branch and the
tree-to-tree diff between the current HEAD (the tracking branch) and that
branch is empty, merge the prior branch (ours) with HEAD (theirs). -/
def auto_merge (env : GitEnv) (from_ : ReferenceName) (message : String) :
    GitM (Option Nat) := do
  match from_ with
  | .branch branch_ref => do
    let s ← getGitState
    match s.findBranch branch_ref with
    | none => throwM (.base "reference not found")
    | some _ => do
      let h ← liftE (headRef s)
      let ht ← liftE (refTree s h)
      let bt ← liftE (refTree s (.branch branch_ref))
      if ht = bt then
        gitMerge env (.branch branch_ref) h message
      else
        pure none
  | .commit _ => pure none

/-- `Index::add(&entry)`: replace any entry at the same path, keep the rest. -/
def upsertEntry (idx : Tree) (e : IndexEntry) : Tree :=
  idx.filter (fun x => x.path ≠ e.path) ++ [e]

/-- `GitRepo::restore_index`: add every backed-up entry to the current index
and write it. -/
def restore_index (entries : Tree) : GitM Unit := do
  popFail "index write failed"
  modifyGitState (fun s => { s with index := List.foldl upsertEntry s.index entries })

/-- `GitRepo::get_current_head_name`. -/
def get_current_head_name : GitM ReferenceName := do
  let s ← getGitState
  match s.head with
  | .branch n =>
    if (s.findBranch n).isSome then pure (.branch n)
    else throwM (.ctx "Failed to get HEAD reference" (.base "unborn branch"))
  | .commit o =>
    match s.findCommit o with
    | some _ => pure (.commit o)
    | none => throwM (.base "commit not found")

/-- The context message built by the `with_context` closures in `save`'s
recovery blocks. -/
def restoreMsg (e : AErr) : String :=
  "Failed to restore HEAD reference from recovering error: " ++ e.top

/-- The error-recovery pattern that `save` uses for its auto-merge, staging,
and commit steps: on error, restore HEAD from the snapshot and surface the
original error; a failed restoration is surfaced with the original error
formatted into its context message. -/
def orRecover (m : GitM α) (current_head : ReferenceName) (k : α → GitM Unit) :
    GitM Unit := fun st =>
  match m st with
  | .ok a st2 => k a st2
  | .error e st2 =>
    match withCtx (restoreMsg e) (change_head_ref current_head) st2 with
    | .ok _ st3 => .error e st3
    | .error e2 st3 => .error e2 st3

/-- `GitRepo::save` from `src/git.rs`, step by step:
return success when the repository state is not clean or when already saved;
snapshot HEAD and the index entries; retarget HEAD to the tracking branch;
auto-merge, stage the working tree, and commit, restoring HEAD on failure of
any of those three; finally restore HEAD and the index entries. -/
def save (env : GitEnv) (branch_name commit_message merge_message : String) :
    GitM Unit := do
  let s ← getGitState
  match s.clean with
  | false => pure ()
  | true => do
    let saved ← liftE (is_saved s branch_name)
    match saved with
    | true => pure ()
    | false => do
      let current_head ← withCtx "Failed to get current HEAD" get_current_head_name
      let s1 ← getGitState
      let current_index_entries := s1.index
      let _ ← withCtx "Failed to change branch" (change_head_branch branch_name)
      orRecover (auto_merge env current_head merge_message) current_head fun _ =>
      orRecover add_cwd_all current_head fun _ =>
      orRecover (commit_on_current_head commit_message) current_head fun _ => do
        let _ ← withCtx "Failed to restore HEAD reference" (change_head_ref current_head)
        withCtx "Failed to restore index entries" (restore_index current_index_entries)

/-- State component of a model run result (on error: the state at failure). -/
def resultState (r : EStateM.Result AErr (GitState × Sched) α) : GitState :=
  match r with
  | .ok _ st => st.1
  | .error _ st => st.1

/-- Value component of a model run result, `none` on error. -/
def resultVal (r : EStateM.Result AErr (GitState × Sched) α) : Option α :=
  match r with
  | .ok a _ => some a
  | .error _ _ => none

/-- Error component of a model run result, `none` on success. -/
def resultErr (r : EStateM.Result AErr (GitState × Sched) α) : Option AErr :=
  match r with
  | .ok _ _ => none
  | .error e _ => some e

/-- A concrete libgit2 environment for example runs: merge base 0, merge
result the "ours" tree. -/
def exEnv : GitEnv := ⟨fun _ _ => .ok 0, fun _ o _ => o⟩

/-- A concrete tree for example runs. -/
def exTree : Tree := [⟨"f", 1, 5⟩]

/-- A concrete repository for example `save` runs: HEAD on branch `main`
(commit 1), tracking branch `tmp` at commit 2, both with tree `exTree` on top
of root commit 0, and a dirty working tree. -/
def exSaveState : GitState :=
  { clean := true
  , head := .branch "main"
  , branches := [("main", 1), ("tmp", 2)]
  , commits := [(0, ⟨[], [], "root"⟩), (1, ⟨exTree, [0], "m1"⟩), (2, ⟨exTree, [0], "m2"⟩)]
  , index := []
  , workdir := [⟨"w", 1, 9⟩]
  , next_oid := 3 }

/-- A concrete libgit2 environment whose merge-base computation fails, to
exercise `save`'s auto-merge failure recovery. -/
def exEnvMBFail : GitEnv := ⟨fun _ _ => .error (.base "mb"), fun _ o _ => o⟩

/-- The repository state after a successful `save exEnv "tmp" "c" "m"` run on
`exSaveState` with an empty (all-succeed) schedule. -/
def exSaveResult : GitState :=
  { clean := true
  , head := .branch "main"
  , branches := [("tmp", 4), ("tmp", 3), ("main", 1), ("tmp", 2)]
  , commits := [(4, ⟨[⟨"w", 1, 9⟩], [3], "c"⟩), (3, ⟨exTree, [2, 1], "m"⟩),
      (0, ⟨[], [], "root"⟩), (1, ⟨exTree, [0], "m1"⟩), (2, ⟨exTree, [0], "m2"⟩)]
  , index := exTree
  , workdir := [⟨"w", 1, 9⟩]
  , next_oid := 5 }

/-- The repository state after `auto_merge exEnv (.branch "main") "MM"` on
`exMergeState` with schedule `[false, false]`. -/
def exMergeResult : GitState :=
  { clean := true
  , head := .branch "tmp"
  , branches := [("tmp", 3), ("main", 1), ("tmp", 2)]
  , commits := [(3, ⟨exTree, [2, 1], "MM"⟩), (0, ⟨[], [], "root"⟩),
      (1, ⟨exTree, [0], "m1"⟩), (2, ⟨exTree, [0], "m2"⟩)]
  , index := []
  , workdir := [⟨"w", 1, 9⟩]
  , next_oid := 4 }

/-- `exSaveState` right after `change_head_branch "tmp"`: HEAD retargeted to
the tracking branch, index mixed-reset to its tree. -/
def exRetargeted : GitState :=
  { exSaveState with head := .branch "tmp", index := exTree }

/-- A concrete repository state as `save` sees it right after retargeting
HEAD to the tracking branch `tmp`, used to run `auto_merge` directly. -/
def exMergeState : GitState :=
  { clean := true
  , head := .branch "tmp"
  , branches := [("main", 1), ("tmp", 2)]
  , commits := [(0, ⟨[], [], "root"⟩), (1, ⟨exTree, [0], "m1"⟩), (2, ⟨exTree, [0], "m2"⟩)]
  , index := []
  , workdir := [⟨"w", 1, 9⟩]
  , next_oid := 3 }

/-!  Path normalisation and redirection (`src/redirect.rs`).  Paths are lists
of characters; a parsed path is its list of components (each a slash-free
list of characters).  The model matches Rust's `Path::components` for the
Unix paths handled here: repeated separators yield empty raw pieces (dropped),
`.` components are skipped, `..` is kept for the normalisation loop. -/

/-- Split a character list at every `/`, keeping empty pieces. -/
def splitSlash : List Char → List (List Char)
  | [] => [[]]
  | c :: rest =>
    if c = '/' then [] :: splitSlash rest
    else
      match splitSlash rest with
      | [] => [[c]]
      | p :: ps => (c :: p) :: ps

/-- The component sequence of a path string as `Path::components` iterates
it (root implicit): empty pieces and `.` are dropped, `..` kept. -/
def rawComponents (s : List Char) : List (List Char) :=
  (splitSlash s).filter (fun p => decide (p ≠ [] ∧ p ≠ ['.']))

/-- The component loop of `normalize_path`: push normal components, `pop` on
`..` (a no-op at the root, as `PathBuf::pop` is). -/
def normalizeComponents (cs : List (List Char)) : List (List Char) :=
  cs.foldl (fun acc c => if c = ['.', '.'] then acc.dropLast else acc ++ [c]) []

/-- Render an absolute `PathBuf` from its components (`/` + components joined
by `/`; the empty component list renders as `/`). -/
def renderAbs (cs : List (List Char)) : List Char :=
  '/' :: joinSep '/' cs

/-- `normalize_path` from `src/redirect.rs`, returning the components of the
normalised absolute path.  A relative path is joined to the current directory
(given as its components; `none` models `env::current_dir()` failing, which
makes the function return `None`). -/
def normalize_path (cwd : Option (List (List Char))) (p : List Char) :
    Option (List (List Char)) :=
  if p.head? = some '/' then
    some (normalizeComponents (rawComponents p))
  else
    match cwd with
    | some c => some (normalizeComponents (c ++ rawComponents p))
    | none => none

/-- `Path::starts_with` on Unix, for an absolute `PathBuf` (given by its
components) against a base path string: component-wise comparison.  A
relative base never matches an absolute path. -/
def pathBufStartsWith (pComps : List (List Char)) (b : List Char) : Bool :=
  b.head? = some '/' && (rawComponents b).isPrefixOf pComps

/-- `str::strip_prefix`. -/
def stripPrefixCh : List Char → List Char → Option (List Char)
  | [], s => some s
  | _ :: _, [] => none
  | p :: ps, c :: cs => if p = c then stripPrefixCh ps cs else none

/-- Interior NUL check: `CString::new` fails exactly when the string contains
a NUL byte. -/
def hasNul (s : List Char) : Bool := s.contains (Char.ofNat 0)

/-- The characters of `".git"`. -/
def dotGit : List Char := ['.', 'g', 'i', 't']

/-- `redirect_path_str` from `src/redirect.rs`: normalise the path, refuse to
redirect `<from>/.git` and anything under `<from>/.git/` (string equality for
the former, `Path::starts_with` for the latter) as well as gitignored paths,
then substitute the `<from>/` prefix (or the exact `<from>`) with `<to>`.
`ign` is the external gitignore classification (see `is_gitignored`). -/
def redirect_path_str (st : RedirectState) (ign : List Char → Bool)
    (cwd : Option (List (List Char))) (path_str : List Char) : Option (List Char) :=
  match get_redirect st with
  | none => none
  | some (f, t) =>
    match normalize_path cwd path_str with
    | none => none
    | some absComps =>
      let absolute_str := renderAbs absComps
      let is_git := absolute_str = f ++ '/' :: dotGit
        ∨ pathBufStartsWith absComps (f ++ '/' :: dotGit ++ ['/']) = true
      if is_git then none
      else if is_gitignored st ign absolute_str then none
      else
        match stripPrefixCh (f ++ ['/']) absolute_str with
        | some suffix =>
          if hasNul (t ++ '/' :: suffix) then none else some (t ++ '/' :: suffix)
        | none =>
          if absolute_str = f then (if hasNul t then none else some t) else none

/-- Modelled from the spec (claim C1's wording): over the normalised path `P`,
redirect exactly when `P = from` or `from ++ "/"` is a prefix of `P`, `P` is
neither `from ++ "/.git"` nor under `from ++ "/.git/"`, and (when enabled) `P`
is not classified as gitignored; the result is `to ++ P[len(from):]`. -/
def spec_redirect (f t : List Char) (skip : Bool) (ign : List Char → Bool)
    (P : List Char) : Option (List Char) :=
  if (P = f ∨ (f ++ ['/']) <+: P)
      ∧ ¬(P = f ++ '/' :: dotGit ∨ (f ++ '/' :: dotGit ++ ['/']) <+: P)
      ∧ ¬(skip = true ∧ ign P = true) then
    some (t ++ P.drop f.length)
  else none

/-- A valid path component: nonempty, not `.`, and slash-free (exactly what
`Component::Normal` components of a Unix path are; `..` never survives
`normalize_path`, so it needs no exclusion here). -/
def ValidComp (c : List Char) : Prop := c ≠ [] ∧ c ≠ ['.'] ∧ '/' ∉ c

/-!  Theorems.  Claim theorems are named `C<n>_...`; everything else is a
helper lemma. -/

/-- C8: the claim states the default `commit_message` is "autosave commit" and
the default `merge_message` is "autosave merge"; `Config::default` in
`src/config.rs` uses "auto save" and "auto merge". -/
theorem C8_counterexample :
    Config.defaultConfig.commit_message ≠ "autosave commit"
    ∧ Config.defaultConfig.merge_message ≠ "autosave merge" := by
  constructor <;> decide

/-- C8 (amended): the default `Config` has branch "tmp/autosave",
commit message "auto save", merge message "auto merge", and delay 3. -/
theorem C8_default_config :
    Config.defaultConfig =
      { branch := "tmp/autosave", commit_message := "auto save"
      , merge_message := "auto merge", delay := 3 } := rfl

theorem lookup_filter_ne (wl : WatchList) (path q : String) (hq : q ≠ path) :
    List.lookup q (wl.filter (fun kv => kv.1 ≠ path)) = List.lookup q wl := by
  induction wl with
  | nil => rfl
  | cons kv rest ih =>
    obtain ⟨k, v⟩ := kv
    rw [List.filter_cons]
    by_cases hk : k = path
    · rw [if_neg (by simp [hk])]
      rw [ih, List.lookup_cons]
      rw [show (q == k) = false from beq_false_of_ne (by rw [hk]; exact hq)]
    · rw [if_pos (by simp [hk])]
      rw [List.lookup_cons, List.lookup_cons]
      cases hqk : q == k
      · exact ih
      · rfl

/-- C7: the claim states `append_watch_dir` appends the new config to an
existing entry for the path; the code (`src/types/implement.rs`) performs
`HashMap::insert` of a fresh entry (new watcher, only the new config), so the
previously attached config and watcher are dropped. -/
theorem C7_counterexample :
    append_watch_dir [("p", ⟨0, Config.defaultConfig⟩)] "p"
        { Config.defaultConfig with branch := "b2" } 1
      = [("p", ⟨1, { Config.defaultConfig with branch := "b2" }⟩)]
    ∧ ({ Config.defaultConfig with branch := "b2" } : Config) ≠ Config.defaultConfig := by
  constructor
  · rfl
  · decide

/-- C7 (amended): when a directory already has an entry, `append_watch_dir`
replaces the entry with a fresh one holding the new watcher and only the new
config; entries for other paths are untouched. -/
theorem C7_insert_replaces (wl : WatchList) (path : String) (config : Config)
    (w : Nat) :
    List.lookup path (append_watch_dir wl path config w)
        = some ⟨w, config⟩
    ∧ ∀ q, q ≠ path →
        List.lookup q (append_watch_dir wl path config w) = List.lookup q wl := by
  constructor
  · simp [append_watch_dir, insertWatch, List.lookup]
  · intro q hq
    simp only [append_watch_dir, insertWatch, List.lookup, beq_false_of_ne hq]
    exact lookup_filter_ne wl path q hq

/-- C7 witness. -/
theorem C7_insert_replaces_witness :
    List.lookup "p" (append_watch_dir [] "p" Config.defaultConfig 0)
        = some ⟨0, Config.defaultConfig⟩
    ∧ List.lookup "q" (append_watch_dir [] "p" Config.defaultConfig 0)
        = List.lookup "q" [] :=
  ⟨(C7_insert_replaces [] "p" Config.defaultConfig 0).1,
   (C7_insert_replaces [] "p" Config.defaultConfig 0).2 "q" (by decide)⟩

/-- C10: at library init, when both `REDIRECT_FROM` and `REDIRECT_TO` are set,
`skip_gitignore` defaults to `true` when `REDIRECT_SKIP_GITIGNORE` is unset
and is `false` exactly when its value is "0" or case-insensitively "false";
when `REDIRECT_FROM` or `REDIRECT_TO` is absent, `skip_gitignore` stays
`false` and `is_gitignored` never consults the gitignore classification. -/
theorem C10_skip_gitignore (e : EnvVars) :
    (∀ f t, e.redirect_from = some f → e.redirect_to = some t →
      (e.redirect_skip_gitignore = none → (redirectInit e).skip_gitignore = true)
      ∧ (∀ v, e.redirect_skip_gitignore = some v →
          ((redirectInit e).skip_gitignore = false
            ↔ (v = "0".data ∨ toLowerStr v = "false".data))))
    ∧ ((e.redirect_from = none ∨ e.redirect_to = none) →
        (redirectInit e).skip_gitignore = false
        ∧ ∀ ign p, is_gitignored (redirectInit e) ign p = false) := by
  obtain ⟨ef, et, es⟩ := e
  constructor
  · rintro f t hf ht
    cases ef with
    | none => cases hf
    | some f0 =>
      cases et with
      | none => cases ht
      | some t0 =>
        constructor
        · intro hs
          subst hs
          simp [redirectInit]
        · intro v hv
          subst hv
          simp only [redirectInit]
          constructor
          · intro h
            rcases Bool.and_eq_false_iff.mp h with h1 | h1 <;>
              [left; right] <;>
              simpa using of_decide_eq_false h1
          · intro h
            rcases h with h | h <;> simp [h]
  · rintro (hf | ht)
    · cases hf
      cases et <;> simp [redirectInit, is_gitignored]
    · cases ht
      cases ef <;> simp [redirectInit, is_gitignored]

/-- C10 witness. -/
theorem C10_skip_gitignore_witness :
    (redirectInit ⟨some ['a'], some ['b'], none⟩).skip_gitignore = true :=
  ((C10_skip_gitignore ⟨some ['a'], some ['b'], none⟩).1 ['a'] ['b'] rfl rfl).1 rfl

theorem append_sep_inj (sep : Char) :
    ∀ (x y u v : List Char), sep ∉ x → sep ∉ y →
      (u = [] ∨ u.head? = some sep) → (v = [] ∨ v.head? = some sep) →
      x ++ u = y ++ v → x = y ∧ u = v := by
  intro x
  induction x with
  | nil =>
    intro y u v _ hy hu _ heq
    cases y with
    | nil => exact ⟨rfl, heq⟩
    | cons c y2 =>
      exfalso
      simp only [List.nil_append, List.cons_append] at heq
      rcases hu with h | h
      · rw [h] at heq; cases heq
      · rw [heq] at h
        simp only [List.head?] at h
        apply hy
        rw [← Option.some_inj.mp h]
        exact List.mem_cons_self c y2
  | cons a x2 ih =>
    intro y u v hx hy hu hv heq
    cases y with
    | nil =>
      exfalso
      simp only [List.nil_append, List.cons_append] at heq
      rcases hv with h | h
      · rw [h] at heq; cases heq
      · rw [← heq] at h
        simp only [List.head?] at h
        apply hx
        rw [← Option.some_inj.mp h]
        exact List.mem_cons_self a x2
    | cons c y2 =>
      simp only [List.cons_append, List.cons.injEq] at heq
      obtain ⟨hac, heq2⟩ := heq
      have hx2 : sep ∉ x2 := fun h => hx (List.mem_cons_of_mem a h)
      have hy2 : sep ∉ y2 := fun h => hy (List.mem_cons_of_mem c h)
      obtain ⟨h1, h2⟩ := ih y2 u v hx2 hy2 hu hv heq2
      exact ⟨by rw [hac, h1], h2⟩

theorem joinSep_ne_nil (sep : Char) (x : List Char) (xs : List (List Char))
    (hx : x ≠ []) : joinSep sep (x :: xs) ≠ [] := by
  cases xs with
  | nil => simpa [joinSep] using hx
  | cons d rest =>
    simp only [joinSep]
    intro h
    rcases List.append_eq_nil.mp h with ⟨_, h2⟩
    cases h2

theorem joinSep_inj (sep : Char) :
    ∀ (xs ys : List (List Char)),
      (∀ c ∈ xs, c ≠ [] ∧ sep ∉ c) → (∀ c ∈ ys, c ≠ [] ∧ sep ∉ c) →
      joinSep sep xs = joinSep sep ys → xs = ys := by
  intro xs
  induction xs with
  | nil =>
    intro ys _ hys heq
    cases ys with
    | nil => rfl
    | cons y ys2 =>
      exact absurd heq.symm (joinSep_ne_nil sep y ys2 (hys y (List.mem_cons_self y ys2)).1)
  | cons x xs2 ih =>
    intro ys hxs hys heq
    cases ys with
    | nil =>
      exact absurd heq (joinSep_ne_nil sep x xs2 (hxs x (List.mem_cons_self x xs2)).1)
    | cons y ys2 =>
      have hxsep : sep ∉ x := (hxs x (List.mem_cons_self x xs2)).2
      have hysep : sep ∉ y := (hys y (List.mem_cons_self y ys2)).2
      cases xs2 with
      | nil =>
        cases ys2 with
        | nil =>
          simp only [joinSep] at heq
          rw [heq]
        | cons d rest =>
          exfalso
          simp only [joinSep] at heq
          obtain ⟨_, h2⟩ := append_sep_inj sep x y [] (sep :: joinSep sep (d :: rest))
            hxsep hysep (Or.inl rfl) (Or.inr rfl) (by simpa using heq)
          cases h2
      | cons d2 rest2 =>
        cases ys2 with
        | nil =>
          exfalso
          simp only [joinSep] at heq
          obtain ⟨_, h2⟩ := append_sep_inj sep x y (sep :: joinSep sep (d2 :: rest2)) []
            hxsep hysep (Or.inr rfl) (Or.inl rfl) (by simpa using heq)
          cases h2
        | cons d rest =>
          simp only [joinSep] at heq
          obtain ⟨h1, h2⟩ := append_sep_inj sep x y
            (sep :: joinSep sep (d2 :: rest2)) (sep :: joinSep sep (d :: rest))
            hxsep hysep (Or.inr rfl) (Or.inr rfl) heq
          have h3 := ih (d :: rest)
            (fun c hc => hxs c (List.mem_cons_of_mem x hc))
            (fun c hc => hys c (List.mem_cons_of_mem y hc))
            (List.cons_injective.eq_iff.mp h2)
          rw [h1, h3]

theorem replaceSlashDash_inj :
    ∀ (b1 b2 : List Char), '-' ∉ b1 → '-' ∉ b2 →
      replaceSlashDash b1 = replaceSlashDash b2 → b1 = b2 := by
  intro b1
  induction b1 with
  | nil =>
    intro b2 _ _ heq
    cases b2 with
    | nil => rfl
    | cons c r => cases heq
  | cons c1 r1 ih =>
    intro b2 h1 h2 heq
    cases b2 with
    | nil => cases heq
    | cons c2 r2 =>
      simp only [replaceSlashDash, List.map_cons, List.cons.injEq] at heq
      obtain ⟨hc, hr⟩ := heq
      have hc1 : c1 ≠ '-' := fun h => h1 (h ▸ List.mem_cons_self c1 r1)
      have hc2 : c2 ≠ '-' := fun h => h2 (h ▸ List.mem_cons_self c2 r2)
      have hcc : c1 = c2 := by
        by_cases e1 : c1 = '/'
        · by_cases e2 : c2 = '/'
          · rw [e1, e2]
          · rw [if_pos e1, if_neg e2] at hc
            exact absurd hc.symm hc2
        · by_cases e2 : c2 = '/'
          · rw [if_neg e1, if_pos e2] at hc
            exact absurd hc hc1
          · rwa [if_neg e1, if_neg e2] at hc
      have hrr : r1 = r2 := ih r2
        (fun h => h1 (List.mem_cons_of_mem c1 h))
        (fun h => h2 (List.mem_cons_of_mem c2 h)) hr
      rw [hcc, hrr]

/-- C9: the claim states the worktree-path sanitisation is injective, but
joining the root components with '-' collides with a component that itself
contains '-': roots `/a/b` and `/a-b` map to the same worktree path. -/
theorem C9_counterexample :
    worktree_path [] [['a'], ['b']] ['x'] = worktree_path [] [['a', '-', 'b']] ['x']
    ∧ ([['a'], ['b']] : List (List Char)) ≠ [['a', '-', 'b']] := by
  constructor
  · rfl
  · decide

/-- C9 (amended): the sanitisation rule is injective on inputs whose root
components and branch name contain no '-' character (root components are
nonempty, as `Component::Normal` components are): for two distinct such
(root, branch) pairs under the same cache directory the computed worktree
paths differ. -/
theorem C9_sanitize_inj (cache r1 r2 : List (List Char)) (b1 b2 : List Char)
    (h1 : ∀ c ∈ r1, c ≠ [] ∧ '-' ∉ c) (h2 : ∀ c ∈ r2, c ≠ [] ∧ '-' ∉ c)
    (hb1 : '-' ∉ b1) (hb2 : '-' ∉ b2)
    (heq : worktree_path cache r1 b1 = worktree_path cache r2 b2) :
    r1 = r2 ∧ b1 = b2 := by
  unfold worktree_path at heq
  have h3 := List.append_cancel_left heq
  simp only [List.cons.injEq] at h3
  obtain ⟨_, hjoin, hbranch, _⟩ := h3
  exact ⟨joinSep_inj '-' r1 r2 h1 h2 hjoin, replaceSlashDash_inj b1 b2 hb1 hb2 hbranch⟩

/-- C9 witness. -/
theorem C9_sanitize_inj_witness :
    ([['a']] : List (List Char)) = [['a']] ∧ (['x'] : List Char) = ['x'] :=
  C9_sanitize_inj [] [['a']] [['a']] ['x'] ['x']
    (by decide) (by decide) (by decide) (by decide) rfl

theorem zip_get? {α β : Type} :
    ∀ (as : List α) (bs : List β) (i : Nat) (x : α) (y : β),
      as.get? i = some x → bs.get? i = some y → (as.zip bs).get? i = some (x, y) := by
  intro as
  induction as with
  | nil => intro bs i x y hx; cases hx
  | cons a as2 ih =>
    intro bs i x y hx hy
    cases bs with
    | nil => cases hy
    | cons b bs2 =>
      cases i with
      | zero =>
        cases hx; cases hy; rfl
      | succ j =>
        simpa [List.zip_cons_cons] using ih bs2 j x y hx hy

theorem windowDiffs_get? :
    ∀ (ds : List Nat) (i : Nat) (a b : Nat),
      ds.get? i = some a → ds.get? (i + 1) = some b →
      (windowDiffs ds).get? i = some (b - a) := by
  intro ds
  induction ds with
  | nil => intro i a b hx; cases hx
  | cons d1 rest ih =>
    intro i a b hx hy
    cases rest with
    | nil =>
      exfalso
      cases i with
      | zero => cases hy
      | succ j => cases hx
    | cons d2 rest2 =>
      cases i with
      | zero =>
        cases hx
        cases hy
        rfl
      | succ j =>
        simpa [windowDiffs] using ih j a b hx hy

theorem debounce_tier_chain (d : Nat) :
    ∀ (t : Nat) (rest : List Nat),
      List.Chain (fun x y => x ≤ y ∧ y ≤ x + d) t rest →
      debounce_tier d t rest = ((t :: rest).getLast (List.cons_ne_nil t rest) + d, []) := by
  intro t rest
  induction rest generalizing t with
  | nil => intro _; rfl
  | cons t2 rest2 ih =>
    intro hch
    cases hch with
    | cons hp hch2 =>
      simp only [debounce_tier, if_pos hp.2, Nat.max_eq_right hp.1]
      rw [ih t2 hch2]
      rfl

theorem debounce_worker_fuel_nil (confs : List Config) (fuel : Nat) :
    debounce_worker_fuel confs fuel [] = [] := by
  cases fuel <;> rfl

/-- C5: the debounce worker's relative delays are `config[0].delay` for tier 0
and `config[i].delay - config[i-1].delay` for tier `i ≥ 1`; with a single
config and a burst of events each within `delay` of the previous, it waits
until `delay` seconds pass with no event and then invokes `save` once, with
that config's branch and messages, at `last event + delay`. -/
theorem C5_debounce_schedule (confs : List Config)
    (hinc : ∀ i a b, confs.get? i = some a → confs.get? (i + 1) = some b →
      a.delay < b.delay) :
    ((∀ c0, confs.get? 0 = some c0 →
        (relative_delays confs).get? 0 = some (c0, c0.delay))
      ∧ (∀ i a b, confs.get? i = some a → confs.get? (i + 1) = some b →
          (relative_delays confs).get? (i + 1) = some (b, b.delay - a.delay)))
    ∧ ∀ (c : Config) (t : Nat) (rest : List Nat),
        List.Chain (fun x y => x ≤ y ∧ y ≤ x + c.delay) t rest →
        debounce_worker [c] (t :: rest) =
          [⟨c.branch, c.commit_message, c.merge_message,
            (t :: rest).getLast (List.cons_ne_nil t rest) + c.delay⟩] := by
  refine ⟨⟨?_, ?_⟩, ?_⟩
  · intro c0 h0
    cases confs with
    | nil => cases h0
    | cons c rest =>
      cases h0
      rfl
  · intro i a b ha hb
    cases confs with
    | nil => cases ha
    | cons c rest =>
      have hz := zip_get? (c :: rest) (c.delay :: windowDiffs ((c :: rest).map Config.delay))
        (i + 1) b (b.delay - a.delay) hb ?_
      · simpa [relative_delays] using hz
      · have hd : ((c :: rest).map Config.delay).get? i = some a.delay := by
          rw [List.get?_map, ha]; rfl
        have hd2 : ((c :: rest).map Config.delay).get? (i + 1) = some b.delay := by
          rw [List.get?_map, hb]; rfl
        simpa using windowDiffs_get? ((c :: rest).map Config.delay) i a.delay b.delay hd hd2
  · intro c t rest hch
    have hrd : relative_delays [c] = [(c, c.delay)] := rfl
    show debounce_worker_fuel [c] (rest.length + 1) (t :: rest) = _
    simp only [debounce_worker_fuel, List.isEmpty, hrd, run_tiers]
    rw [debounce_tier_chain c.delay t rest hch]
    simp only [run_tiers]
    rw [debounce_worker_fuel_nil]
    rfl

/-- C4: when the repository state is not clean (merge/rebase/cherry-pick in
progress), or when it is already saved (the working tree has no diff against
HEAD, or the branch exists and the working tree has no diff against it —
`is_saved`), `save` returns success with the repository state, references and
index entirely unchanged, and no schedule entry consumed. -/
theorem C4_save_noop (env : GitEnv) (b cm mm : String) (s : GitState) (sch : Sched) :
    (s.clean = false → save env b cm mm (s, sch) = .ok () (s, sch))
    ∧ (is_saved s b = .ok true → save env b cm mm (s, sch) = .ok () (s, sch)) := by
  constructor
  · intro h
    simp [save, getGitState, h, bind, EStateM.bind, pure, EStateM.pure]
  · intro h
    cases hc : s.clean
    · simp [save, getGitState, hc, bind, EStateM.bind, pure, EStateM.pure]
    · simp [save, getGitState, hc, h, liftE, bind, EStateM.bind, pure, EStateM.pure]

/-- C4 witness. -/
theorem C4_save_noop_witness :
    save ⟨fun _ _ => Except.ok 0, fun _ o _ => o⟩ "b" "c" "m"
        (⟨false, .commit 0, [], [], [], [], 0⟩, []) =
      .ok () (⟨false, .commit 0, [], [], [], [], 0⟩, []) :=
  (C4_save_noop ⟨fun _ _ => Except.ok 0, fun _ o _ => o⟩ "b" "c" "m"
    ⟨false, .commit 0, [], [], [], [], 0⟩ []).1 rfl

/-- C5 witness. -/
theorem C5_debounce_schedule_witness :
    debounce_worker [⟨"b", "cm", "mm", 3⟩] [0] = [⟨"b", "cm", "mm", 3⟩] := by
  have h := (C5_debounce_schedule [⟨"b", "cm", "mm", 3⟩]
    (by intro i a b ha hb; cases i <;> cases hb)).2
    ⟨"b", "cm", "mm", 3⟩ 0 [] List.Chain.nil
  simpa using h


theorem withCtx_ok_iff {α : Type} (msg : String) (m : GitM α) (st : GitState × Sched)
    (a : α) (st2 : GitState × Sched) :
    withCtx msg m st = .ok a st2 ↔ m st = .ok a st2 := by
  unfold withCtx
  cases hm : m st with
  | ok a2 st3 => exact Iff.rfl
  | error e st3 => simp

theorem orRecover_ok {α : Type} (m : GitM α) (ch : ReferenceName) (k : α → GitM Unit)
    (st : GitState × Sched) (u : Unit) (st2 : GitState × Sched)
    (h : orRecover m ch k st = .ok u st2) :
    ∃ a st1, m st = .ok a st1 ∧ k a st1 = .ok u st2 := by
  unfold orRecover at h
  cases hm : m st with
  | ok a st1 =>
    simp only [hm] at h
    exact ⟨a, st1, rfl, h⟩
  | error e st1 =>
    simp only [hm] at h
    cases hw : withCtx (restoreMsg e) (change_head_ref ch) st1 with
    | ok r st3 => simp only [hw] at h; cases h
    | error e2 st3 => simp only [hw] at h; cases h

theorem change_head_ref_ok (t : ReferenceName) (s : GitState) (sch : Sched)
    (r : ReferenceName) (st2 : GitState × Sched)
    (h : change_head_ref t (s, sch) = .ok r st2) :
    st2.1.head = t ∧ st2.1.branches = s.branches ∧ st2.1.commits = s.commits
      ∧ st2.1.workdir = s.workdir ∧ st2.1.clean = s.clean
      ∧ st2.1.next_oid = s.next_oid := by
  have step : ∀ (sch2 : Sched),
      (do
        let s3 ← getGitState
        let o ← liftE (refCommit s3 t)
        match s3.findCommit o with
        | some c => do
          modifyGitState (fun s2 => { s2 with index := c.tree })
          pure t
        | none => throwM (.base "commit not found") : GitM ReferenceName)
        ({ s with head := t }, sch2) = .ok r st2 →
      st2.1.head = t ∧ st2.1.branches = s.branches ∧ st2.1.commits = s.commits
        ∧ st2.1.workdir = s.workdir ∧ st2.1.clean = s.clean
        ∧ st2.1.next_oid = s.next_oid := by
    intro sch2 h2
    simp only [bind, EStateM.bind, getGitState, liftE] at h2
    cases hrc : refCommit { s with head := t } t with
    | error e => simp only [hrc, throwM] at h2; cases h2
    | ok o =>
      simp only [hrc, pure, EStateM.pure] at h2
      cases hfc : GitState.findCommit { s with head := t } o with
      | none => simp only [hfc, throwM] at h2; cases h2
      | some c =>
        simp only [hfc, modifyGitState] at h2
        cases h2
        exact ⟨rfl, rfl, rfl, rfl, rfl, rfl⟩
  cases sch with
  | nil =>
    simp only [change_head_ref, bind, EStateM.bind, popFail, modifyGitState] at h
    exact step [] h
  | cons b1 rest1 =>
    cases b1 with
    | true =>
      simp only [change_head_ref, bind, EStateM.bind, popFail] at h
      cases h
    | false =>
      cases rest1 with
      | nil =>
        simp only [change_head_ref, bind, EStateM.bind, popFail, modifyGitState] at h
        exact step [] h
      | cons b2 rest2 =>
        cases b2 with
        | true =>
          simp only [change_head_ref, bind, EStateM.bind, popFail, modifyGitState] at h
          cases h
        | false =>
          simp only [change_head_ref, bind, EStateM.bind, popFail, modifyGitState] at h
          exact step rest2 h

theorem restore_index_ok (es : Tree) (s : GitState) (sch : Sched)
    (u : Unit) (st2 : GitState × Sched)
    (h : restore_index es (s, sch) = .ok u st2) :
    st2.1.head = s.head ∧ st2.1.index = List.foldl upsertEntry s.index es := by
  cases sch with
  | nil =>
    simp only [restore_index, bind, EStateM.bind, popFail, modifyGitState] at h
    cases h
    exact ⟨rfl, rfl⟩
  | cons b1 rest1 =>
    cases b1 with
    | true =>
      simp only [restore_index, bind, EStateM.bind, popFail] at h
      cases h
    | false =>
      simp only [restore_index, bind, EStateM.bind, popFail, modifyGitState] at h
      cases h
      exact ⟨rfl, rfl⟩

theorem get_current_head_name_run (s : GitState) (sch : Sched) :
    get_current_head_name (s, sch) = .ok s.head (s, sch)
    ∨ ∃ e, get_current_head_name (s, sch) = .error e (s, sch) := by
  cases hh : s.head with
  | branch n =>
    cases hfb : s.findBranch n with
    | some o =>
      left
      simp [get_current_head_name, bind, EStateM.bind, getGitState, hh, hfb,
        pure, EStateM.pure]
    | none =>
      right
      exact ⟨.ctx "Failed to get HEAD reference" (.base "unborn branch"),
        by simp [get_current_head_name, bind, EStateM.bind, getGitState, hh, hfb, throwM]⟩
  | commit o =>
    cases hfc : s.findCommit o with
    | some c =>
      left
      simp [get_current_head_name, bind, EStateM.bind, getGitState, hh, hfc,
        pure, EStateM.pure]
    | none =>
      right
      exact ⟨.base "commit not found",
        by simp [get_current_head_name, bind, EStateM.bind, getGitState, hh, hfc, throwM]⟩

theorem mem_foldl_upsert_frozen (e : IndexEntry) :
    ∀ (rest : Tree) (acc : Tree), e ∈ acc → (∀ x ∈ rest, x.path ≠ e.path) →
      e ∈ List.foldl upsertEntry acc rest := by
  intro rest
  induction rest with
  | nil => intro acc h _; simpa using h
  | cons x rest2 ih =>
    intro acc h hne
    simp only [List.foldl_cons]
    apply ih
    · unfold upsertEntry
      apply List.mem_append_left
      apply List.mem_filter.mpr
      refine ⟨h, ?_⟩
      simpa using (hne x (List.mem_cons_self x rest2)).symm
    · intro y hy
      exact hne y (List.mem_cons_of_mem x hy)

theorem mem_foldl_upsert :
    ∀ (entries : Tree), (entries.map IndexEntry.path).Nodup →
      ∀ (acc : Tree), ∀ e ∈ entries, e ∈ List.foldl upsertEntry acc entries := by
  intro entries
  induction entries with
  | nil => intro _ acc e he; cases he
  | cons x rest ih =>
    intro hnodup acc e he
    have hnd : (∀ y ∈ rest, ¬ y.path = x.path) ∧ (rest.map IndexEntry.path).Nodup := by
      simpa using hnodup
    simp only [List.foldl_cons]
    rcases List.mem_cons.mp he with rfl | he2
    · apply mem_foldl_upsert_frozen
      · unfold upsertEntry
        exact List.mem_append_right _ (List.mem_singleton.mpr rfl)
      · exact hnd.1
    · exact ih hnd.2 (upsertEntry acc x) e he2

set_option maxHeartbeats 1600000 in
/-- C2: whenever `save` returns success, HEAD has the same symbolic target
(branch case) or commit id (detached case) as before the call, and every index
entry present before the call is present in the index after the call
(assuming, as a real index does, one entry per path in the backup). -/
theorem C2_save_transparent (env : GitEnv) (b cm mm : String) (s : GitState)
    (sch : Sched) (r : Unit) (s' : GitState) (sch' : Sched)
    (hnodup : (s.index.map IndexEntry.path).Nodup)
    (h : save env b cm mm (s, sch) = .ok r (s', sch')) :
    s'.head = s.head ∧ ∀ e ∈ s.index, e ∈ s'.index := by
  unfold save at h
  cases hcl : s.clean with
  | false =>
    simp only [bind, EStateM.bind, getGitState, hcl, pure, EStateM.pure] at h
    cases h
    exact ⟨rfl, fun e he => he⟩
  | true =>
    cases hsv : is_saved s b with
    | error e =>
      simp only [bind, EStateM.bind, getGitState, liftE, hcl, hsv, throwM] at h
      cases h
    | ok saved =>
      cases saved with
      | true =>
        simp only [bind, EStateM.bind, getGitState, liftE, hcl, hsv, pure,
          EStateM.pure] at h
        cases h
        exact ⟨rfl, fun e he => he⟩
      | false =>
        simp only [bind, EStateM.bind, getGitState, liftE, hcl, hsv, pure,
          EStateM.pure] at h
        rcases get_current_head_name_run s sch with hch | hch
        case inr =>
          obtain ⟨e, hch⟩ := hch
          simp only [withCtx, hch] at h
          cases h
        case inl =>
          simp only [withCtx, hch] at h
          cases hcb : change_head_branch b (s, sch) with
          | error e2 =>
            simp only [hcb] at h
            cases h
          | ok r1 st1 =>
            simp only [hcb] at h
            obtain ⟨a2, st2, hm2, h⟩ := orRecover_ok _ _ _ _ _ _ h
            obtain ⟨a3, st3, hm3, h⟩ := orRecover_ok _ _ _ _ _ _ h
            obtain ⟨a4, st4, hm4, h⟩ := orRecover_ok _ _ _ _ _ _ h
            obtain ⟨s4, sch4⟩ := st4
            simp only [bind, EStateM.bind] at h
            cases hcr : change_head_ref s.head (s4, sch4) with
            | error e5 =>
              simp only [withCtx, hcr] at h
              cases h
            | ok r5 st5 =>
              simp only [withCtx, hcr] at h
              obtain ⟨s5, sch5⟩ := st5
              have hhd := change_head_ref_ok s.head s4 sch4 r5 (s5, sch5) hcr
              cases hri : restore_index s.index (s5, sch5) with
              | error e6 =>
                simp only [hri] at h
                cases h
              | ok u6 st6 =>
                simp only [hri] at h
                cases h
                have hres := restore_index_ok _ _ _ _ _ hri
                refine ⟨?_, ?_⟩
                · rw [hres.1, hhd.1]
                · intro e he
                  rw [hres.2]
                  exact mem_foldl_upsert s.index hnodup s5.index e he


theorem popFail_ok_shape (msg : String) (s : GitState) (sch : Sched) (u : Unit)
    (stp : GitState × Sched) (h : popFail msg (s, sch) = .ok u stp) :
    stp = (s, sch.tail) := by
  cases sch with
  | nil => cases h; rfl
  | cons b rest =>
    cases b with
    | true => cases h
    | false => cases h; rfl

theorem headRef_ok_eq (s : GitState) (hr : ReferenceName)
    (h : headRef s = .ok hr) : hr = s.head := by
  unfold headRef at h
  cases hh : s.head with
  | branch n =>
    cases hfb : s.findBranch n with
    | some o => simp [hh, hfb] at h; exact h.symm
    | none => simp [hh, hfb] at h
  | commit o => simp [hh] at h; exact h.symm

theorem get_current_head_name_ok_eq (s : GitState) (sch : Sched) (ch : ReferenceName)
    (st2 : GitState × Sched) (h : get_current_head_name (s, sch) = .ok ch st2) :
    ch = s.head ∧ st2 = (s, sch) := by
  rcases get_current_head_name_run s sch with hr | ⟨e, hr⟩
  · rw [hr] at h; cases h; exact ⟨rfl, rfl⟩
  · rw [hr] at h; cases h

set_option maxHeartbeats 1600000 in
/-- C3 (amended): for failures in steps 5-7 of `save` (auto-merge, staging,
committing), HEAD is restored from the snapshot before the error is
surfaced; when the restoration itself fails, the returned error is the
restoration error carrying the original error's message in its context.  A
failure in step 4 (`change_head_branch`) is NOT recovered (see the
counterexample). -/
theorem C3_restore_on_failure (env : GitEnv) (b cm mm : String)
    (s : GitState) (sch : Sched) (ch r1 : ReferenceName) (st1 : GitState × Sched)
    (hclean : s.clean = true) (hsaved : is_saved s b = .ok false)
    (hch : get_current_head_name (s, sch) = .ok ch (s, sch))
    (hcb : change_head_branch b (s, sch) = .ok r1 st1) :
    (∀ e st2, auto_merge env ch mm st1 = .error e st2 →
      (∀ r2 st3, change_head_ref ch st2 = .ok r2 st3 →
        save env b cm mm (s, sch) = .error e st3 ∧ st3.1.head = s.head)
      ∧ (∀ e2 st3, change_head_ref ch st2 = .error e2 st3 →
        save env b cm mm (s, sch) = .error (.ctx (restoreMsg e) e2) st3))
    ∧ (∀ a2 st2, auto_merge env ch mm st1 = .ok a2 st2 →
      ∀ e st3, add_cwd_all st2 = .error e st3 →
        (∀ r2 st4, change_head_ref ch st3 = .ok r2 st4 →
          save env b cm mm (s, sch) = .error e st4 ∧ st4.1.head = s.head)
        ∧ (∀ e2 st4, change_head_ref ch st3 = .error e2 st4 →
          save env b cm mm (s, sch) = .error (.ctx (restoreMsg e) e2) st4))
    ∧ (∀ a2 st2, auto_merge env ch mm st1 = .ok a2 st2 →
      ∀ a3 st3, add_cwd_all st2 = .ok a3 st3 →
      ∀ e st4, commit_on_current_head cm st3 = .error e st4 →
        (∀ r2 st5, change_head_ref ch st4 = .ok r2 st5 →
          save env b cm mm (s, sch) = .error e st5 ∧ st5.1.head = s.head)
        ∧ (∀ e2 st5, change_head_ref ch st4 = .error e2 st5 →
          save env b cm mm (s, sch) = .error (.ctx (restoreMsg e) e2) st5)) := by
  have hche : ch = s.head := (get_current_head_name_ok_eq s sch ch (s, sch) hch).1
  have hsave : save env b cm mm (s, sch)
      = orRecover (auto_merge env ch mm) ch (fun _ =>
          orRecover add_cwd_all ch fun _ =>
          orRecover (commit_on_current_head cm) ch fun _ => do
            let _ ← withCtx "Failed to restore HEAD reference" (change_head_ref ch)
            withCtx "Failed to restore index entries" (restore_index s.index)) st1 := by
    unfold save
    simp only [bind, EStateM.bind, getGitState, liftE, hclean, hsaved, pure,
      EStateM.pure, withCtx, hch, hcb]
  refine ⟨?_, ?_, ?_⟩
  · intro e st2 hme
    constructor
    · intro r2 st3 hcr
      constructor
      · rw [hsave]
        simp only [orRecover, hme, withCtx, hcr]
      · obtain ⟨s9, sch9⟩ := st2
        rw [(change_head_ref_ok ch s9 sch9 r2 st3 hcr).1]
        rw [hche]
    · intro e2 st3 hcr
      rw [hsave]
      simp only [orRecover, hme, withCtx, hcr]
  · intro a2 st2 hma e st3 hadd
    constructor
    · intro r2 st4 hcr
      constructor
      · rw [hsave]
        simp only [orRecover, hma, hadd, withCtx, hcr]
      · obtain ⟨s9, sch9⟩ := st3
        rw [(change_head_ref_ok ch s9 sch9 r2 st4 hcr).1]
        rw [hche]
    · intro e2 st4 hcr
      rw [hsave]
      simp only [orRecover, hma, hadd, withCtx, hcr]
  · intro a2 st2 hma a3 st3 hadd e st4 hcmt
    constructor
    · intro r2 st5 hcr
      constructor
      · rw [hsave]
        simp only [orRecover, hma, hadd, hcmt, withCtx, hcr]
      · obtain ⟨s9, sch9⟩ := st4
        rw [(change_head_ref_ok ch s9 sch9 r2 st5 hcr).1]
        rw [hche]
    · intro e2 st5 hcr
      rw [hsave]
      simp only [orRecover, hma, hadd, hcmt, withCtx, hcr]

set_option maxHeartbeats 1600000 in
/-- C6 (amended): every merge commit created by `auto_merge` carries the
`merge_message` and exactly two parents, in the order
(tracking-branch commit, prior-branch commit) — `commit(&[&tc, &oc], ...)`
in `GitRepo::merge`. -/
theorem C6_merge_parents (env : GitEnv) (bn mm : String) (s : GitState) (sch : Sched)
    (c : Nat) (st2 : GitState × Sched)
    (h : auto_merge env (.branch bn) mm (s, sch) = .ok (some c) st2) :
    ∃ oc tc co, refCommit s (.branch bn) = .ok oc
      ∧ refCommit s s.head = .ok tc
      ∧ st2.1.findCommit c = some co
      ∧ co.message = mm ∧ co.parents = [tc, oc] := by
  unfold auto_merge at h
  simp only [bind, EStateM.bind, getGitState, liftE] at h
  cases hfb : s.findBranch bn with
  | none => simp only [hfb, throwM] at h; cases h
  | some bo =>
    simp only [hfb] at h
    cases hhr : headRef s with
    | error e => simp only [hhr, throwM] at h; cases h
    | ok hr =>
      have hre : hr = s.head := headRef_ok_eq s hr hhr
      cases hht : refTree s hr with
      | error e => simp only [hhr, hht, throwM, pure, EStateM.pure, EStateM.bind] at h; cases h
      | ok ht =>
        cases hbt : refTree s (.branch bn) with
        | error e =>
          simp only [hhr, hht, hbt, throwM, pure, EStateM.pure, EStateM.bind] at h; cases h
        | ok bt =>
          simp only [hhr, hht, hbt, pure, EStateM.pure, EStateM.bind] at h
          by_cases hteq : ht = bt
          case neg =>
            rw [if_neg hteq] at h
            cases h
          case pos =>
            rw [if_pos hteq] at h
            -- h : gitMerge env (.branch bn) hr mm (s, sch) = .ok (some c) st2
            unfold gitMerge at h
            simp only [bind, EStateM.bind, getGitState, liftE] at h
            cases hoc : refCommit s (.branch bn) with
            | error e => simp only [hoc, throwM] at h; cases h
            | ok oc =>
              cases htc : refCommit s hr with
              | error e =>
                simp only [hoc, htc, throwM, pure, EStateM.pure, EStateM.bind] at h; cases h
              | ok tc =>
                cases hmb : env.merge_base oc tc with
                | error e =>
                  simp only [hoc, htc, hmb, throwM, pure, EStateM.pure, EStateM.bind] at h
                  cases h
                | ok base =>
                  simp only [hoc, htc, hmb, pure, EStateM.pure, EStateM.bind] at h
                  by_cases hbase : oc = base ∨ tc = base
                  case pos =>
                    rw [if_pos hbase] at h
                    cases h
                  case neg =>
                    rw [if_neg hbase] at h
                    cases hbc : s.findCommit base with
                    | none => simp only [hbc, throwM] at h; cases h
                    | some baseCommit =>
                      simp only [hbc] at h
                      cases hot : refTree s (.branch bn) with
                      | error e => simp only [hot, throwM] at h; cases h
                      | ok ot =>
                        cases htt : refTree s hr with
                        | error e =>
                          simp only [hot, htt, throwM, pure, EStateM.pure, EStateM.bind] at h
                          cases h
                        | ok tt =>
                          simp only [hot, htt, pure, EStateM.pure, EStateM.bind] at h
                          cases hp1 : popFail "merge_trees failed" (s, sch) with
                          | error e stp => simp only [hp1] at h; cases h
                          | ok u1 stp =>
                            have hstp := popFail_ok_shape _ _ _ _ _ hp1
                            subst hstp
                            simp only [hp1, modifyGitState, EStateM.bind] at h
                            -- now commitPrim
                            unfold commitPrim at h
                            simp only [bind, EStateM.bind, getGitState, modifyGitState,
                              pure, EStateM.pure] at h
                            cases hp2 : popFail "commit failed"
                                ({ s with index := env.merge_trees baseCommit.tree ot tt },
                                  sch.tail) with
                            | error e stp2 => simp only [hp2] at h; cases h
                            | ok u2 stp2 =>
                              have hstp2 := popFail_ok_shape _ _ _ _ _ hp2
                              subst hstp2
                              simp only [hp2] at h
                              cases hh : s.head with
                              | branch n =>
                                simp only [hh] at h
                                cases h
                                refine ⟨oc, tc,
                                  ⟨env.merge_trees baseCommit.tree ot tt, [tc, oc], mm⟩,
                                  rfl, ?_, ?_, rfl, rfl⟩
                                · rw [hh] at hre; rw [← hre]; exact htc
                                · simp [GitState.findCommit, List.lookup]
                              | commit o =>
                                simp only [hh] at h
                                cases h
                                refine ⟨oc, tc,
                                  ⟨env.merge_trees baseCommit.tree ot tt, [tc, oc], mm⟩,
                                  rfl, ?_, ?_, rfl, rfl⟩
                                · rw [hh] at hre; rw [← hre]; exact htc
                                · simp [GitState.findCommit, List.lookup]


/-- C2 witness. -/
theorem C2_save_transparent_witness :
    exSaveResult.head = exSaveState.head
    ∧ ∀ e ∈ exSaveState.index, e ∈ exSaveResult.index :=
  C2_save_transparent exEnv "tmp" "c" "m" exSaveState [] () exSaveResult []
    (by decide) (by rfl)

/-- C3: the claim says every failure in steps 4-7 restores HEAD before the
error is surfaced; a reset failure inside step 4 (`change_head_branch`)
propagates via `?` with no recovery, leaving HEAD moved to the tracking
branch. -/
theorem C3_counterexample :
    resultErr (save exEnv "tmp" "c" "m" (exSaveState, [false, true]))
      = some (.ctx "Failed to change branch" (.base "reset failed"))
    ∧ (resultState (save exEnv "tmp" "c" "m" (exSaveState, [false, true]))).head
        = .branch "tmp"
    ∧ exSaveState.head = .branch "main"
    ∧ ReferenceName.branch "tmp" ≠ ReferenceName.branch "main" :=
  ⟨rfl, rfl, rfl, by decide⟩

/-- C3 witness: an auto-merge failure (merge-base error) with a successful
restoration: `save` surfaces the original error with HEAD restored. -/
theorem C3_restore_on_failure_witness :
    save exEnvMBFail "tmp" "c" "m" (exSaveState, [])
      = .error (.base "mb") ({ exSaveState with index := exTree }, [])
    ∧ ({ exSaveState with index := exTree } : GitState).head = exSaveState.head :=
  ((C3_restore_on_failure exEnvMBFail "tmp" "c" "m" exSaveState []
      (.branch "main") (.branch "tmp") (exRetargeted, []) rfl rfl rfl rfl).1
    (.base "mb") (exRetargeted, []) rfl).1
    (.branch "main") ({ exSaveState with index := exTree }, []) rfl

/-- C6: the claim says the merge commit's parents are in the order
(prior-branch commit, tracking-branch commit); the code passes
`&[&tc, &oc]`, i.e. (tracking, prior): with prior branch `main` at commit 1
and tracking branch `tmp` (HEAD) at commit 2, the created merge commit has
parents `[2, 1]`, not `[1, 2]`. -/
theorem C6_counterexample :
    resultVal (auto_merge exEnv (.branch "main") "MM" (exMergeState, [false, false]))
      = some (some 3)
    ∧ (resultState (auto_merge exEnv (.branch "main") "MM"
        (exMergeState, [false, false]))).findCommit 3 = some ⟨exTree, [2, 1], "MM"⟩
    ∧ refCommit exMergeState (.branch "main") = .ok 1
    ∧ refCommit exMergeState exMergeState.head = .ok 2
    ∧ ([2, 1] : List Nat) ≠ [1, 2] :=
  ⟨rfl, rfl, rfl, rfl, by decide⟩

/-- C6 witness. -/
theorem C6_merge_parents_witness :
    ∃ oc tc co, refCommit exMergeState (.branch "main") = .ok oc
      ∧ refCommit exMergeState exMergeState.head = .ok tc
      ∧ (exMergeResult, ([] : Sched)).1.findCommit 3 = some co
      ∧ co.message = "MM" ∧ co.parents = [tc, oc] :=
  C6_merge_parents exEnv "main" "MM" exMergeState [false, false] 3
    (exMergeResult, []) (by rfl)


theorem splitSlash_ne_nil (s : List Char) : splitSlash s ≠ [] := by
  induction s with
  | nil => simp [splitSlash]
  | cons c rest ih =>
    simp only [splitSlash]
    by_cases hc : c = '/'
    · simp [hc]
    · rw [if_neg hc]
      cases hsp : splitSlash rest with
      | nil => simp
      | cons p ps => simp

theorem splitSlash_append_slash (x r : List Char) :
    splitSlash (x ++ '/' :: r) = splitSlash x ++ splitSlash r := by
  induction x with
  | nil => simp [splitSlash]
  | cons c rest ih =>
    by_cases hc : c = '/'
    · subst hc
      show splitSlash ('/' :: (rest ++ '/' :: r)) = splitSlash ('/' :: rest) ++ splitSlash r
      simp only [splitSlash, if_pos rfl, ih]
      rfl
    · show splitSlash (c :: (rest ++ '/' :: r)) = splitSlash (c :: rest) ++ splitSlash r
      cases hsp : splitSlash rest with
      | nil => exact absurd hsp (splitSlash_ne_nil rest)
      | cons p ps =>
        have h1 : splitSlash (c :: (rest ++ '/' :: r)) =
            match splitSlash (rest ++ '/' :: r) with
            | [] => [[c]]
            | q :: qs => (c :: q) :: qs := by
          simp only [splitSlash, if_neg hc]
        have h2 : splitSlash (c :: rest) =
            match splitSlash rest with
            | [] => [[c]]
            | q :: qs => (c :: q) :: qs := by
          simp only [splitSlash, if_neg hc]
        rw [h1, h2, ih, hsp]
        rfl

theorem splitSlash_noSlash (c : List Char) (h : '/' ∉ c) : splitSlash c = [c] := by
  induction c with
  | nil => rfl
  | cons ch rest ih =>
    have hch : ch ≠ '/' := fun he => h (he ▸ List.mem_cons_self ch rest)
    have hr : '/' ∉ rest := fun he => h (List.mem_cons_of_mem ch he)
    simp only [splitSlash, if_neg hch, ih hr]

theorem joinSep_append (sep : Char) (xs ys : List (List Char))
    (hx : xs ≠ []) (hy : ys ≠ []) :
    joinSep sep (xs ++ ys) = joinSep sep xs ++ sep :: joinSep sep ys := by
  induction xs with
  | nil => exact absurd rfl hx
  | cons x xs2 ih =>
    cases xs2 with
    | nil =>
      cases ys with
      | nil => exact absurd rfl hy
      | cons y ys2 => simp [joinSep]
    | cons x2 xs3 =>
      have h2 := ih (by simp)
      simp only [List.cons_append] at h2 ⊢
      simp only [joinSep, h2, List.append_assoc, List.cons_append]

theorem splitSlash_joinSep (cs : List (List Char))
    (h : ∀ c ∈ cs, '/' ∉ c) (hne : cs ≠ []) :
    splitSlash (joinSep '/' cs) = cs := by
  induction cs with
  | nil => exact absurd rfl hne
  | cons x cs2 ih =>
    cases cs2 with
    | nil => exact splitSlash_noSlash x (h x (List.mem_cons_self x []))
    | cons y cs3 =>
      have hj : joinSep '/' (x :: y :: cs3) = x ++ '/' :: joinSep '/' (y :: cs3) := rfl
      rw [hj, splitSlash_append_slash,
        splitSlash_noSlash x (h x (List.mem_cons_self x (y :: cs3))),
        ih (fun c hc => h c (List.mem_cons_of_mem x hc)) (by simp)]
      rfl

theorem rawComponents_renderAbs (cs : List (List Char))
    (h : ∀ c ∈ cs, ValidComp c) : rawComponents (renderAbs cs) = cs := by
  cases hcs : cs with
  | nil => rfl
  | cons x cs2 =>
    have hns : ∀ c ∈ cs, '/' ∉ c := fun c hc => (h c hc).2.2
    have h1 : renderAbs cs = '/' :: joinSep '/' cs := rfl
    rw [← hcs]
    unfold rawComponents
    rw [h1, show splitSlash ('/' :: joinSep '/' cs) = [] :: splitSlash (joinSep '/' cs) by
      simp [splitSlash]]
    rw [splitSlash_joinSep cs hns (hcs ▸ List.cons_ne_nil x cs2)]
    rw [List.filter_cons]
    rw [if_neg (by simp)]
    exact List.filter_eq_self.mpr (fun c hc => by
      have := h c hc
      simp [ValidComp] at this
      simp [this.1, this.2.1])

theorem rawComponents_renderAbs_slash (cs : List (List Char))
    (h : ∀ c ∈ cs, ValidComp c) : rawComponents (renderAbs cs ++ ['/']) = cs := by
  cases hcs : cs with
  | nil => rfl
  | cons x cs2 =>
    have hns : ∀ c ∈ cs, '/' ∉ c := fun c hc => (h c hc).2.2
    rw [← hcs]
    unfold rawComponents
    have h1 : renderAbs cs ++ ['/'] = '/' :: (joinSep '/' cs ++ '/' :: []) := rfl
    rw [h1, show splitSlash ('/' :: (joinSep '/' cs ++ '/' :: []))
        = [] :: splitSlash (joinSep '/' cs ++ '/' :: []) by simp [splitSlash]]
    rw [splitSlash_append_slash,
      splitSlash_joinSep cs hns (hcs ▸ List.cons_ne_nil x cs2)]
    rw [show splitSlash [] = [[]] from rfl]
    rw [List.filter_cons, if_neg (by simp), List.filter_append]
    rw [show List.filter (fun p => decide (p ≠ [] ∧ p ≠ ['.'])) [[]] = [] from rfl,
      List.append_nil]
    exact List.filter_eq_self.mpr (fun c hc => by
      have := h c hc
      simp [ValidComp] at this
      simp [this.1, this.2.1])

theorem renderAbs_inj (as bs : List (List Char))
    (ha : ∀ c ∈ as, ValidComp c) (hb : ∀ c ∈ bs, ValidComp c)
    (h : renderAbs as = renderAbs bs) : as = bs := by
  rw [← rawComponents_renderAbs as ha, ← rawComponents_renderAbs bs hb, h]

theorem renderAbs_append_single (fc : List (List Char)) (x : List Char)
    (hne : fc ≠ []) : renderAbs (fc ++ [x]) = renderAbs fc ++ '/' :: x := by
  unfold renderAbs
  rw [joinSep_append '/' fc [x] hne (by simp)]
  rfl

theorem prefix_renderAbs_iff (as bs : List (List Char))
    (ha : ∀ c ∈ as, ValidComp c) (hb : ∀ c ∈ bs, ValidComp c) (hne : as ≠ []) :
    as <+: bs ↔
      (renderAbs as = renderAbs bs ∨ (renderAbs as ++ ['/']) <+: renderAbs bs) := by
  constructor
  · rintro ⟨rest, hrest⟩
    cases hr : rest with
    | nil =>
      left
      rw [← hrest, hr, List.append_nil]
    | cons r0 rs =>
      right
      subst hrest
      refine ⟨joinSep '/' rest, ?_⟩
      have hra : renderAbs (as ++ rest) = renderAbs as ++ '/' :: joinSep '/' rest := by
        unfold renderAbs
        rw [joinSep_append '/' as rest hne (by rw [hr]; simp)]
        rfl
      rw [hra]
      simp
  · rintro (heq | ⟨r, hr⟩)
    · rw [renderAbs_inj as bs ha hb heq]
    · have hbs : rawComponents (renderAbs bs) = bs := rawComponents_renderAbs bs hb
      have hns : ∀ c ∈ as, '/' ∉ c := fun c hc => (ha c hc).2.2
      have h1 : renderAbs bs = '/' :: (joinSep '/' as ++ '/' :: r) := by
        rw [← hr]
        unfold renderAbs
        simp
      have h2 : rawComponents (renderAbs bs)
          = as ++ List.filter (fun p => decide (p ≠ [] ∧ p ≠ ['.'])) (splitSlash r) := by
        rw [h1]
        unfold rawComponents
        rw [show splitSlash ('/' :: (joinSep '/' as ++ '/' :: r))
            = [] :: splitSlash (joinSep '/' as ++ '/' :: r) from by simp [splitSlash]]
        rw [splitSlash_append_slash, splitSlash_joinSep as hns hne]
        rw [List.filter_cons, if_neg (by simp), List.filter_append]
        congr 1
        exact List.filter_eq_self.mpr (fun c hc => by
          have hv := ha c hc
          simp [ValidComp] at hv
          simp [hv.1, hv.2.1])
      rw [hbs] at h2
      exact ⟨_, h2.symm⟩

theorem splitSlash_pieces_noSlash :
    ∀ (s : List Char), ∀ p ∈ splitSlash s, '/' ∉ p := by
  intro s
  induction s with
  | nil =>
    intro p hp
    simp only [splitSlash, List.mem_singleton] at hp
    simp [hp]
  | cons c rest ih =>
    intro p hp
    by_cases hc : c = '/'
    · rw [show splitSlash (c :: rest) = [] :: splitSlash rest by simp [splitSlash, hc]] at hp
      rcases List.mem_cons.mp hp with rfl | hp2
      · simp
      · exact ih p hp2
    · cases hsp : splitSlash rest with
      | nil => exact absurd hsp (splitSlash_ne_nil rest)
      | cons q qs =>
        rw [show splitSlash (c :: rest) = (c :: q) :: qs by
          simp [splitSlash, if_neg hc, hsp]] at hp
        rcases List.mem_cons.mp hp with rfl | hp2
        · intro hmem
          rcases List.mem_cons.mp hmem with he | hq
          · exact hc he.symm
          · exact ih q (hsp ▸ List.mem_cons_self q qs) hq
        · exact ih p (hsp ▸ List.mem_cons_of_mem q hp2)

theorem rawComponents_valid (s : List Char) :
    ∀ c ∈ rawComponents s, ValidComp c := by
  intro c hc
  unfold rawComponents at hc
  have h1 := List.of_mem_filter hc
  have h2 := List.mem_of_mem_filter hc
  simp at h1
  exact ⟨h1.1, h1.2, splitSlash_pieces_noSlash s c h2⟩

theorem normalizeComponents_mem (cs : List (List Char)) (x : List Char)
    (h : x ∈ normalizeComponents cs) : x ∈ cs := by
  unfold normalizeComponents at h
  suffices hgen : ∀ (acc : List (List Char)),
      x ∈ List.foldl (fun acc c => if c = ['.', '.'] then acc.dropLast else acc ++ [c]) acc cs
      → x ∈ acc ∨ x ∈ cs by
    rcases hgen [] h with h2 | h2
    · cases h2
    · exact h2
  clear h
  induction cs with
  | nil => intro acc h; exact Or.inl h
  | cons c cs2 ih =>
    intro acc h
    rw [List.foldl_cons] at h
    rcases ih _ h with h2 | h2
    · by_cases hc : c = ['.', '.']
      · rw [if_pos hc] at h2
        exact Or.inl (List.dropLast_subset _ h2)
      · rw [if_neg hc] at h2
        rcases List.mem_append.mp h2 with h3 | h3
        · exact Or.inl h3
        · exact Or.inr (List.mem_singleton.mp h3 ▸ List.mem_cons_self c cs2)
    · exact Or.inr (List.mem_cons_of_mem c h2)

theorem normalize_path_valid (cwd : Option (List (List Char))) (p : List Char)
    (hcwd : ∀ comps, cwd = some comps → ∀ c ∈ comps, ValidComp c)
    (absComps : List (List Char)) (h : normalize_path cwd p = some absComps) :
    ∀ c ∈ absComps, ValidComp c := by
  intro c hc
  unfold normalize_path at h
  by_cases habs : p.head? = some '/'
  · rw [if_pos habs] at h
    cases h
    exact rawComponents_valid p c (normalizeComponents_mem _ c hc)
  · rw [if_neg habs] at h
    cases hcw : cwd with
    | none => rw [hcw] at h; cases h
    | some comps =>
      rw [hcw] at h
      cases h
      rcases List.mem_append.mp (normalizeComponents_mem _ c hc) with h2 | h2
      · exact hcwd comps hcw c h2
      · exact rawComponents_valid p c h2

theorem stripPrefixCh_some_iff :
    ∀ (pre s u : List Char), stripPrefixCh pre s = some u ↔ s = pre ++ u := by
  intro pre
  induction pre with
  | nil =>
    intro s u
    simp only [stripPrefixCh, List.nil_append, Option.some.injEq]
  | cons pc pre2 ih =>
    intro s u
    cases s with
    | nil => simp [stripPrefixCh]
    | cons sc s2 =>
      by_cases hpc : pc = sc
      · subst hpc
        rw [show stripPrefixCh (pc :: pre2) (pc :: s2) = stripPrefixCh pre2 s2 by
          simp [stripPrefixCh]]
        rw [ih s2 u]
        simp
      · rw [show stripPrefixCh (pc :: pre2) (sc :: s2) = none by
          simp [stripPrefixCh, hpc]]
        constructor
        · intro h; cases h
        · intro he
          rw [List.cons_append] at he
          injection he with h1 h2
          exact absurd h1.symm hpc

theorem hasNul_false_iff (s : List Char) : hasNul s = false ↔ Char.ofNat 0 ∉ s := by
  simp [hasNul]

theorem is_gitignored_true_iff (st : RedirectState) (ign : List Char → Bool)
    (s : List Char) :
    is_gitignored st ign s = true ↔ (st.skip_gitignore = true ∧ ign s = true) := by
  cases hsk : st.skip_gitignore <;> simp [is_gitignored, hsk]

set_option maxHeartbeats 1600000 in
/-- C1: over the lexically normalised path `P`, the computed redirection is
exactly the spec's decision: when from/to are configured (`from` a normalised
absolute path below the root, NUL-free strings), the path is redirected to
`to ++ P[len(from):]` iff `P = from` or `from ++ "/"` prefixes `P`, `P` is
neither `from ++ "/.git"` nor under `from ++ "/.git/"`, and (when enabled)
`P` is not classified as gitignored; in every other case, including an absent
configuration, no redirection is computed. -/
theorem C1_redirect_correct (st : RedirectState) (ign : List Char → Bool)
    (cwd : Option (List (List Char))) (p : List Char) :
    (get_redirect st = none → redirect_path_str st ign cwd p = none)
    ∧ ∀ f t fc, st.redirect_from = some f → st.redirect_to = some t →
        f = renderAbs fc → (∀ c ∈ fc, ValidComp c) → fc ≠ [] →
        (∀ comps, cwd = some comps → ∀ c ∈ comps, ValidComp c) →
        hasNul t = false →
        ∀ absComps, normalize_path cwd p = some absComps →
          hasNul (renderAbs absComps) = false →
          redirect_path_str st ign cwd p
            = spec_redirect f t st.skip_gitignore ign (renderAbs absComps) := by
  constructor
  · intro h
    unfold redirect_path_str
    rw [h]
  · intro f t fc hf ht hrender hvalid hfcne hcwd hnult absComps hnorm hnulP
    have hgr : get_redirect st = some (f, t) := by
      unfold get_redirect
      rw [hf, ht]
    have habsv : ∀ c ∈ absComps, ValidComp c :=
      normalize_path_valid cwd p hcwd absComps hnorm
    have hGv : ∀ c ∈ fc ++ [dotGit], ValidComp c := by
      intro c hc
      rcases List.mem_append.mp hc with h2 | h2
      · exact hvalid c h2
      · rw [List.mem_singleton.mp h2]
        exact ⟨by decide, by decide, by decide⟩
    have hGne : fc ++ [dotGit] ≠ [] := by simp
    have hrenderG : renderAbs (fc ++ [dotGit]) = f ++ '/' :: dotGit := by
      rw [renderAbs_append_single fc dotGit hfcne, hrender]
    have hb1 : f ++ '/' :: dotGit ++ ['/'] = renderAbs (fc ++ [dotGit]) ++ ['/'] := by
      rw [hrenderG]
    have hpb : pathBufStartsWith absComps (f ++ '/' :: dotGit ++ ['/']) = true
        ↔ (fc ++ [dotGit]) <+: absComps := by
      unfold pathBufStartsWith
      rw [hb1, rawComponents_renderAbs_slash (fc ++ [dotGit]) hGv]
      rw [show (renderAbs (fc ++ [dotGit]) ++ ['/']).head? = some '/' from by
        simp [renderAbs]]
      simp [List.isPrefixOf_iff_prefix]
    have hgit : (renderAbs absComps = f ++ '/' :: dotGit
          ∨ pathBufStartsWith absComps (f ++ '/' :: dotGit ++ ['/']) = true)
        ↔ (renderAbs absComps = f ++ '/' :: dotGit
          ∨ (f ++ '/' :: dotGit ++ ['/']) <+: renderAbs absComps) := by
      constructor
      · rintro (h1 | h1)
        · exact Or.inl h1
        · rcases (prefix_renderAbs_iff _ _ hGv habsv hGne).mp (hpb.mp h1) with h2 | h2
          · left
            rw [← h2, hrenderG]
          · right
            rw [hb1]
            exact h2
      · rintro (h1 | h1)
        · exact Or.inl h1
        · right
          apply hpb.mpr
          apply (prefix_renderAbs_iff _ _ hGv habsv hGne).mpr
          right
          rw [← hb1]
          exact h1
    have hred : redirect_path_str st ign cwd p =
        (if (renderAbs absComps = f ++ '/' :: dotGit
            ∨ pathBufStartsWith absComps (f ++ '/' :: dotGit ++ ['/']) = true) then none
         else if is_gitignored st ign (renderAbs absComps) then none
         else match stripPrefixCh (f ++ ['/']) (renderAbs absComps) with
           | some suffix =>
             if hasNul (t ++ '/' :: suffix) then none else some (t ++ '/' :: suffix)
           | none =>
             if renderAbs absComps = f then (if hasNul t then none else some t)
             else none) := by
      unfold redirect_path_str
      rw [hgr, hnorm]
    rw [hred]
    unfold spec_redirect
    by_cases hG : renderAbs absComps = f ++ '/' :: dotGit
        ∨ (f ++ '/' :: dotGit ++ ['/']) <+: renderAbs absComps
    · rw [if_pos (hgit.mpr hG), if_neg (fun hx => hx.2.1 hG)]
    · rw [if_neg (fun hx => hG (hgit.mp hx))]
      by_cases hI : st.skip_gitignore = true ∧ ign (renderAbs absComps) = true
      · rw [if_pos ((is_gitignored_true_iff st ign (renderAbs absComps)).mpr hI),
          if_neg (fun hx => hx.2.2 hI)]
      · rw [if_neg (fun hx =>
          hI ((is_gitignored_true_iff st ign (renderAbs absComps)).mp hx))]
        cases hstrip : stripPrefixCh (f ++ ['/']) (renderAbs absComps) with
        | some suffix =>
          have hPeq : renderAbs absComps = f ++ '/' :: suffix := by
            have h3 :=
              (stripPrefixCh_some_iff (f ++ ['/']) (renderAbs absComps) suffix).mp hstrip
            simpa using h3
          have hnuls : hasNul (t ++ '/' :: suffix) = false := by
            rw [hasNul_false_iff]
            intro hm
            rcases List.mem_append.mp hm with h2 | h2
            · exact (hasNul_false_iff t).mp hnult h2
            · rcases List.mem_cons.mp h2 with h3 | h3
              · exact absurd h3 (by decide)
              · apply (hasNul_false_iff _).mp hnulP
                rw [hPeq]
                exact List.mem_append_right _ (List.mem_cons_of_mem _ h3)
          have hmatch : renderAbs absComps = f ∨ (f ++ ['/']) <+: renderAbs absComps :=
            Or.inr ⟨suffix, by rw [hPeq]; simp⟩
          have hcond : (renderAbs absComps = f ∨ (f ++ ['/']) <+: renderAbs absComps)
              ∧ ¬(renderAbs absComps = f ++ '/' :: dotGit
                ∨ (f ++ '/' :: dotGit ++ ['/']) <+: renderAbs absComps)
              ∧ ¬(st.skip_gitignore = true ∧ ign (renderAbs absComps) = true) :=
            ⟨hmatch, hG, hI⟩
          rw [if_pos hcond]
          rw [hPeq, show (f ++ '/' :: suffix).drop f.length = '/' :: suffix from by
            have h4 : f ++ '/' :: suffix = f ++ ('/' :: suffix) := rfl
            rw [h4, List.drop_left]]
          simp [hnuls]
        | none =>
          have hnopre : ¬ (f ++ ['/']) <+: renderAbs absComps := by
            rintro ⟨u, hu⟩
            have h5 := (stripPrefixCh_some_iff (f ++ ['/']) (renderAbs absComps) u).mpr hu.symm
            rw [hstrip] at h5
            cases h5
          by_cases hPf : renderAbs absComps = f
          · have hcond : (renderAbs absComps = f ∨ (f ++ ['/']) <+: renderAbs absComps)
                ∧ ¬(renderAbs absComps = f ++ '/' :: dotGit
                  ∨ (f ++ '/' :: dotGit ++ ['/']) <+: renderAbs absComps)
                ∧ ¬(st.skip_gitignore = true ∧ ign (renderAbs absComps) = true) :=
              ⟨Or.inl hPf, hG, hI⟩
            rw [if_pos hcond]
            rw [hPf, List.drop_length, List.append_nil]
            simp [hPf, hnult]
          · have hspecneg : ¬((renderAbs absComps = f
                ∨ (f ++ ['/']) <+: renderAbs absComps)
                ∧ ¬(renderAbs absComps = f ++ '/' :: dotGit
                  ∨ (f ++ '/' :: dotGit ++ ['/']) <+: renderAbs absComps)
                ∧ ¬(st.skip_gitignore = true ∧ ign (renderAbs absComps) = true)) := by
              intro hx
              rcases hx.1 with h6 | h6
              · exact hPf h6
              · exact hnopre h6
            rw [if_neg hspecneg]
            simp [hPf]

/-- C1 witness. -/
theorem C1_redirect_correct_witness :
    redirect_path_str ⟨some ['/', 'a'], some ['/', 'w'], false⟩ (fun _ => false) none
        ['/', 'a', '/', 'x']
      = spec_redirect ['/', 'a'] ['/', 'w'] false (fun _ => false)
          (renderAbs [['a'], ['x']]) :=
  (C1_redirect_correct ⟨some ['/', 'a'], some ['/', 'w'], false⟩ (fun _ => false) none
      ['/', 'a', '/', 'x']).2 ['/', 'a'] ['/', 'w'] [['a']] rfl rfl rfl
    (fun c hc => by
      rw [List.mem_singleton.mp hc]
      exact ⟨by decide, by decide, by decide⟩)
    (by decide) (fun comps h => nomatch h) rfl [['a'], ['x']] rfl rfl

end Autosave
